import Mathlib

/-!
Shallow embedding of the AI Castle game engine (`src/v0/src/engine.ts` together
with the type declarations of `src/v0/src/types.ts`).

Modelling conventions:

* JavaScript numbers that the engine ever stores in the state or in action
  parameters are modelled as `Int`.  `enqueueAction` admits only parameters
  that pass `Number.isInteger` and are `≥ 0`, so on every admitted action the
  integer check of the source is discharged by the `Int` type itself and only
  the sign check remains.
* The TypeScript `Action` union is closed, but the runtime dispatch in
  `validateActionParams` has a `default:` branch for values whose `type` tag is
  not one of the five known strings; the constructor `unknownKind` models such
  runtime values.
* `UpgradeState` keeps the optional fields of the TypeScript interface as
  `Option Int`; the non-null assertions `progress!`/`woodRequired!` of
  `applyConstruction` are rendered with `Option.getD 0` (every reachable active
  upgrade carries both fields, so the default is never consulted there).
* The `Logger`, the auto-tick timer and the provenance metadata
  (`requestedBy`/`commandId`), which the engine logic never consults, are not
  modelled.
* `Array.prototype.sort` with the comparator `priorityA - priorityB` is a
  stable sort by priority.  Since the priority map takes only the values
  1, 2, 3, 4 and 999, the stable sort of a queue is exactly the concatenation,
  in priority order, of the subsequences of each priority class;
  `sortActionQueue` is written in that closed form.
-/

namespace AICastle

/-- `JobCounts` of `types.ts`. -/
structure JobCounts where
  miners : Int
  farmers : Int
  lumberjacks : Int
  builders : Int
deriving DecidableEq, Repr

/-- `UpgradeState` of `types.ts` (optional fields kept as `Option`). -/
structure UpgradeState where
  active : Bool
  target : Option Int := none
  progress : Option Int := none
  woodRequired : Option Int := none
deriving DecidableEq, Repr

/-- `GameState` of `types.ts`. -/
structure GameState where
  turn : Int
  gold : Int
  food : Int
  wood : Int
  workers : Int
  castleLevel : Int
  jobs : JobCounts
  upgradeInProgress : UpgradeState
deriving DecidableEq, Repr

/-- The `Action` union of `types.ts`: a tag plus the parameters of that kind.
`unknownKind` stands for a runtime value whose `type` tag is none of the five
known strings (the `default:` branch of `validateActionParams`). -/
inductive Action where
  | assignJobs (miners farmers lumberjacks builders : Int)
  | hire (count : Int)
  | fire (count : Int)
  | buyFood (amount : Int)
  | startUpgrade
  | unknownKind (kind : String)
deriving DecidableEq, Repr

/-- `QueuedAction` of `types.ts`: an action stamped with the turn at which it
was enqueued. -/
structure QueuedAction where
  action : Action
  queuedAtTurn : Int
deriving DecidableEq, Repr

/-- `ActionResult` of `types.ts`. -/
structure ActionResult where
  queued : Bool
  applyAtTurn : Option Int := none
  error : Option String := none
deriving DecidableEq, Repr

/-- `ValidationResult` of `types.ts`. -/
inductive ValidationResult where
  | valid
  | invalid (error : String)
deriving DecidableEq, Repr

/-- The engine's mutable fields that the game logic touches: the `state` and
the `actionQueue` of the `GameEngine` class. -/
structure Engine where
  state : GameState
  actionQueue : List QueuedAction
deriving DecidableEq, Repr

/-- The fixed default starting state built by the `GameEngine` constructor
when no `initialState` override is supplied. -/
def defaultInitialState : GameState :=
  { turn := 0
    gold := 25
    food := 18
    wood := 0
    workers := 5
    castleLevel := 0
    jobs := { miners := 2, farmers := 1, lumberjacks := 1, builders := 0 }
    upgradeInProgress := { active := false } }

/-- A freshly constructed engine: default state, empty action queue. -/
def initialEngine : Engine :=
  { state := defaultInitialState, actionQueue := [] }

/-- `GameEngine.validateActionParams`: syntactic, state-independent checks.
(The `Number.isInteger` checks of the source are discharged by the `Int`
type of the embedding.) -/
def validateActionParams : Action → ValidationResult
  | .assignJobs miners farmers lumberjacks builders =>
      if miners < 0 ∨ farmers < 0 ∨ lumberjacks < 0 ∨ builders < 0 then
        .invalid "Job counts must be non-negative integers"
      else .valid
  | .hire count =>
      if count < 0 then .invalid "Hire count must be a non-negative integer"
      else .valid
  | .fire count =>
      if count < 0 then .invalid "Fire count must be a non-negative integer"
      else .valid
  | .buyFood amount =>
      if amount < 0 then .invalid "Buy food amount must be a non-negative integer"
      else .valid
  | .startUpgrade => .valid
  | .unknownKind kind => .invalid ("Unknown action type: " ++ kind)

/-- `GameEngine.enqueueAction`: validate syntactically; on success push the
action (stamped with the current turn) at the back of the queue and report
`applyAtTurn = turn + 1`; on failure report the error.  The `GameState` is
never touched. -/
def enqueueAction (e : Engine) (a : Action) : Engine × ActionResult :=
  match validateActionParams a with
  | .invalid err => (e, { queued := false, error := some err })
  | .valid =>
      ({ e with
          actionQueue := e.actionQueue ++ [{ action := a, queuedAtTurn := e.state.turn }] },
       { queued := true, applyAtTurn := some (e.state.turn + 1) })

/-- The `priorityMap` of `GameEngine.sortActionQueue` (with `|| 999` for a tag
outside the map). -/
def actionPriority : Action → Int
  | .hire _ => 1
  | .fire _ => 1
  | .assignJobs _ _ _ _ => 2
  | .startUpgrade => 3
  | .buyFood _ => 4
  | .unknownKind _ => 999

/-- `GameEngine.sortActionQueue`: stable sort of the queue by
`actionPriority`, written as the concatenation of the priority classes in
order (see the module comment). -/
def sortActionQueue (q : List QueuedAction) : List QueuedAction :=
  q.filter (fun qa => actionPriority qa.action = 1)
    ++ q.filter (fun qa => actionPriority qa.action = 2)
    ++ q.filter (fun qa => actionPriority qa.action = 3)
    ++ q.filter (fun qa => actionPriority qa.action = 4)
    ++ q.filter (fun qa => actionPriority qa.action = 999)

/-- `GameEngine.validateActionAtApplyTime`: state-dependent validation run
when the queue is drained.  (The source's `switch` has no `default` branch, so
an unknown tag validates successfully.) -/
def validateActionAtApplyTime (s : GameState) (qa : QueuedAction) : ValidationResult :=
  match qa.action with
  | .assignJobs miners farmers lumberjacks builders =>
      let sum := miners + farmers + lumberjacks + builders
      if sum ≠ s.workers then
        .invalid ("AssignJobs sum (" ++ toString sum
          ++ ") does not match current workers (" ++ toString s.workers ++ ")")
      else .valid
  | .hire count =>
      let cost := count * 5
      if s.gold < cost then
        .invalid ("Not enough gold to hire " ++ toString count
          ++ " workers (need " ++ toString cost ++ ", have " ++ toString s.gold ++ ")")
      else .valid
  | .fire count =>
      if s.workers < count then
        .invalid ("Cannot fire " ++ toString count
          ++ " workers (only have " ++ toString s.workers ++ ")")
      else .valid
  | .buyFood amount =>
      let cost := amount
      if s.gold < cost then
        .invalid ("Not enough gold to buy " ++ toString amount
          ++ " food (need " ++ toString cost ++ ", have " ++ toString s.gold ++ ")")
      else .valid
  | .startUpgrade =>
      if s.upgradeInProgress.active then
        .invalid "An upgrade is already in progress"
      else
        let cost := 10 * (s.castleLevel + 1)
        if s.gold < cost then
          .invalid ("Not enough gold to start upgrade (need " ++ toString cost
            ++ ", have " ++ toString s.gold ++ ")")
        else .valid
  | .unknownKind _ => .valid

/-- `GameEngine.applyAction`: mutate the state with one validated action.
(The source's `switch` has no case for an unknown tag, so it is a no-op.) -/
def applyAction (s : GameState) (qa : QueuedAction) : GameState :=
  match qa.action with
  | .assignJobs miners farmers lumberjacks builders =>
      { s with jobs := { miners, farmers, lumberjacks, builders } }
  | .hire count =>
      let cost := count * 5
      { s with gold := s.gold - cost, workers := s.workers + count }
  | .fire count =>
      { s with workers := s.workers - count }
  | .buyFood amount =>
      let cost := amount
      { s with gold := s.gold - cost, food := s.food + amount }
  | .startUpgrade =>
      let cost := 10 * (s.castleLevel + 1)
      let woodRequired := 12 * (s.castleLevel + 1)
      { s with
          gold := s.gold - cost
          upgradeInProgress :=
            { active := true
              target := some (s.castleLevel + 1)
              progress := some 0
              woodRequired := some woodRequired } }
  | .unknownKind _ => s

/-- The loop body of `GameEngine.applyQueuedActions`: walk the sorted queue,
validating each action against the state already mutated by the earlier
actions of the same tick; a valid action is applied and recorded, an invalid
one is skipped (only logged). -/
def processActions (s : GameState) : List QueuedAction → GameState × List Action
  | [] => (s, [])
  | qa :: rest =>
      match validateActionAtApplyTime s qa with
      | .invalid _ => processActions s rest
      | .valid =>
          let s' := applyAction s qa
          let res := processActions s' rest
          (res.1, qa.action :: res.2)

/-- `GameEngine.applyQueuedActions`: sort the queue by priority, process it,
clear it, and return the applied-actions log. -/
def applyQueuedActions (e : Engine) : Engine × List Action :=
  let sorted := sortActionQueue e.actionQueue
  let res := processActions e.state sorted
  ({ state := res.1, actionQueue := [] }, res.2)

/-- `GameEngine.applyProduction`: miners produce 2 gold each, farmers 3 food
each, lumberjacks 1 wood each. -/
def applyProduction (s : GameState) : GameState :=
  { s with
      gold := s.gold + s.jobs.miners * 2
      food := s.food + s.jobs.farmers * 3
      wood := s.wood + s.jobs.lumberjacks * 1 }

/-- The `for` loop of `GameEngine.applyConstruction`: iterate once per
builder; an iteration with `wood > 0` consumes 1 wood and adds 1 progress,
otherwise it does nothing. -/
def constructionLoop : Nat → Int → Int → Int × Int
  | 0, wood, progress => (wood, progress)
  | n + 1, wood, progress =>
      if wood > 0 then constructionLoop n (wood - 1) (progress + 1)
      else constructionLoop n wood progress

/-- `GameEngine.applyConstruction`: no-op when no upgrade is active; otherwise
run the builders loop, then, if `progress ≥ woodRequired`, raise the castle
level by 1, credit the flat 5-gold completion bonus and deactivate the
upgrade. -/
def applyConstruction (s : GameState) : GameState :=
  if s.upgradeInProgress.active = false then s
  else
    let p := s.upgradeInProgress.progress.getD 0
    let w := s.upgradeInProgress.woodRequired.getD 0
    let res := constructionLoop s.jobs.builders.toNat s.wood p
    let s1 :=
      { s with
          wood := res.1
          upgradeInProgress := { s.upgradeInProgress with progress := some res.2 } }
    if res.2 ≥ w then
      { s1 with
          castleLevel := s1.castleLevel + 1
          gold := s1.gold + 5
          upgradeInProgress := { active := false } }
    else s1

/-- `GameEngine.reduceJobsByPriority`: shrink the job allocation by
`workersToRemove`, taking from builders, then lumberjacks, then farmers, then
miners, each removal capped at that job's current count. -/
def reduceJobsByPriority (jobs : JobCounts) (workersToRemove : Int) : JobCounts :=
  let remaining := workersToRemove
  let buildersToRemove := min remaining jobs.builders
  let jobs1 := { jobs with builders := jobs.builders - buildersToRemove }
  let remaining1 := remaining - buildersToRemove
  let step2 : JobCounts × Int :=
    if remaining1 > 0 then
      let lumberjacksToRemove := min remaining1 jobs1.lumberjacks
      ({ jobs1 with lumberjacks := jobs1.lumberjacks - lumberjacksToRemove },
       remaining1 - lumberjacksToRemove)
    else (jobs1, remaining1)
  let step3 : JobCounts × Int :=
    if step2.2 > 0 then
      let farmersToRemove := min step2.2 step2.1.farmers
      ({ step2.1 with farmers := step2.1.farmers - farmersToRemove },
       step2.2 - farmersToRemove)
    else step2
  let step4 : JobCounts × Int :=
    if step3.2 > 0 then
      let minersToRemove := min step3.2 step3.1.miners
      ({ step3.1 with miners := step3.1.miners - minersToRemove },
       step3.2 - minersToRemove)
    else step3
  step4.1

/-- `GameEngine.applyUpkeep`: each worker eats 1 food; on a shortage the food
floor is 0, `ceil(shortage / 2)` workers are lost (workforce floored at 0) and
the job allocation is reduced by the workers lost.  For the integer
`shortage ≥ 1` of the shortage branch, `Math.ceil(shortage / 2)` equals
`(shortage + 1) / 2`. -/
def applyUpkeep (s : GameState) : GameState :=
  let foodNeeded := s.workers
  let food1 := s.food - foodNeeded
  if food1 < 0 then
    let shortage := -food1
    let workersLost := (shortage + 1) / 2
    let s1 := { s with food := 0, workers := max 0 (s.workers - workersLost) }
    if workersLost > 0 then
      { s1 with jobs := reduceJobsByPriority s1.jobs workersLost }
    else s1
  else { s with food := food1 }

/-- `GameEngine.applyTaxes`: `1 × castleLevel` gold, added when positive. -/
def applyTaxes (s : GameState) : GameState :=
  let taxIncome := 1 * s.castleLevel
  if taxIncome > 0 then { s with gold := s.gold + taxIncome } else s

/-- `GameEngine.clampResources`: floor gold, food and wood at 0. -/
def clampResources (s : GameState) : GameState :=
  { s with gold := max 0 s.gold, food := max 0 s.food, wood := max 0 s.wood }

/-- Steps 1–6 of `GameEngine.tick` (everything before the clamp): drain the
queue, increment the turn, then production, construction, upkeep and taxes. -/
def preClampTick (e : Engine) : Engine × List Action :=
  let res := applyQueuedActions e
  let s0 := { res.1.state with turn := res.1.state.turn + 1 }
  let s := applyTaxes (applyUpkeep (applyConstruction (applyProduction s0)))
  ({ res.1 with state := s }, res.2)

/-- `GameEngine.tick` (= one `advance()`): the pre-clamp phases followed by
the resource clamp.  Returns the new engine and the applied-actions log. -/
def tick (e : Engine) : Engine × List Action :=
  let res := preClampTick e
  ({ res.1 with state := clampResources res.1.state }, res.2)

/-- Sum of the four job counts. -/
def jobsSum (j : JobCounts) : Int :=
  j.miners + j.farmers + j.lumberjacks + j.builders

/-- The engines reachable through the public interface: the freshly
constructed engine, then any interleaving of `enqueueAction` and `tick`. -/
inductive Reachable : Engine → Prop
  | init : Reachable initialEngine
  | enqueue (e : Engine) (a : Action) : Reachable e → Reachable (enqueueAction e a).1
  | step (e : Engine) : Reachable e → Reachable (tick e).1

/-- All counters of the state that the engine treats as quantities are
non-negative. -/
def StateInv (s : GameState) : Prop :=
  0 ≤ s.gold ∧ 0 ≤ s.food ∧ 0 ≤ s.wood ∧ 0 ≤ s.workers ∧ 0 ≤ s.castleLevel ∧
  0 ≤ s.jobs.miners ∧ 0 ≤ s.jobs.farmers ∧ 0 ≤ s.jobs.lumberjacks ∧ 0 ≤ s.jobs.builders

instance (s : GameState) : Decidable (StateInv s) := by
  unfold StateInv
  infer_instance

/-- Every action of the queue passed the syntactic admission check. -/
def AdmittedQueue (q : List QueuedAction) : Prop :=
  ∀ qa ∈ q, validateActionParams qa.action = .valid

instance (q : List QueuedAction) : Decidable (AdmittedQueue q) := by
  unfold AdmittedQueue
  infer_instance

/-! ### Helper lemmas -/

theorem actionPriority_cases (a : Action) :
    actionPriority a = 1 ∨ actionPriority a = 2 ∨ actionPriority a = 3 ∨
      actionPriority a = 4 ∨ actionPriority a = 999 := by
  cases a <;> simp [actionPriority]

theorem mem_of_mem_sortActionQueue {qa : QueuedAction} {q : List QueuedAction}
    (h : qa ∈ sortActionQueue q) : qa ∈ q := by
  simp only [sortActionQueue, List.mem_append, List.mem_filter] at h
  rcases h with ((((h | h) | h) | h) | h) <;> exact h.1

theorem constructionLoop_eq (n : Nat) (wood progress : Int) :
    constructionLoop n wood progress =
      (wood - ↑(min n wood.toNat), progress + ↑(min n wood.toNat)) := by
  induction n generalizing wood progress with
  | zero => simp [constructionLoop]
  | succ n ih =>
      by_cases h : wood > 0
      · rw [constructionLoop, if_pos h, ih]
        have h1 : (wood - 1).toNat = wood.toNat - 1 := by omega
        have h2 : min (n + 1) wood.toNat = min n (wood.toNat - 1) + 1 := by omega
        rw [h1, h2]
        refine Prod.ext ?_ ?_ <;> push_cast <;> omega
      · rw [constructionLoop, if_neg h, ih]
        have h2 : min (n + 1) wood.toNat = min n wood.toNat := by omega
        rw [h2]

theorem processActions_append (l₁ l₂ : List QueuedAction) (s : GameState) :
    processActions s (l₁ ++ l₂) =
      ((processActions (processActions s l₁).1 l₂).1,
        (processActions s l₁).2 ++ (processActions (processActions s l₁).1 l₂).2) := by
  induction l₁ generalizing s with
  | nil => simp [processActions]
  | cons qa rest ih =>
      simp only [List.cons_append, processActions]
      cases validateActionAtApplyTime s qa <;> simp [ih]

theorem processActions_applied_sourced (l : List QueuedAction) (s : GameState) :
    ∀ a ∈ (processActions s l).2, ∃ qa ∈ l, qa.action = a := by
  induction l generalizing s with
  | nil => simp [processActions]
  | cons qa rest ih =>
      intro a ha
      simp only [processActions] at ha
      cases hv : validateActionAtApplyTime s qa with
      | invalid err =>
          rw [hv] at ha
          obtain ⟨qb, hqb, hqa⟩ := ih _ a ha
          exact ⟨qb, List.mem_cons_of_mem _ hqb, hqa⟩
      | valid =>
          rw [hv] at ha
          simp only [List.mem_cons] at ha
          rcases ha with rfl | ha
          · exact ⟨qa, List.mem_cons_self _ _, rfl⟩
          · obtain ⟨qb, hqb, hqa⟩ := ih _ a ha
            exact ⟨qb, List.mem_cons_of_mem _ hqb, hqa⟩

theorem applyProduction_frame (s : GameState) :
    (applyProduction s).jobs = s.jobs ∧ (applyProduction s).workers = s.workers ∧
      (applyProduction s).upgradeInProgress = s.upgradeInProgress := by
  simp [applyProduction]

theorem applyConstruction_frame (s : GameState) :
    (applyConstruction s).jobs = s.jobs ∧ (applyConstruction s).workers = s.workers := by
  unfold applyConstruction
  split
  · simp
  · dsimp only
    split <;> simp

theorem applyTaxes_frame (s : GameState) :
    (applyTaxes s).jobs = s.jobs ∧ (applyTaxes s).workers = s.workers ∧
      (applyTaxes s).food = s.food ∧ (applyTaxes s).wood = s.wood ∧
      (applyTaxes s).upgradeInProgress = s.upgradeInProgress := by
  unfold applyTaxes
  dsimp only
  split <;> simp

theorem clampResources_frame (s : GameState) :
    (clampResources s).jobs = s.jobs ∧ (clampResources s).workers = s.workers ∧
      (clampResources s).upgradeInProgress = s.upgradeInProgress := by
  simp [clampResources]

theorem applyUpkeep_frame (s : GameState) :
    (applyUpkeep s).gold = s.gold ∧ (applyUpkeep s).wood = s.wood ∧
      (applyUpkeep s).castleLevel = s.castleLevel ∧
      (applyUpkeep s).upgradeInProgress = s.upgradeInProgress := by
  unfold applyUpkeep
  dsimp only
  split
  · split <;> simp
  · simp

/-- Closed form of `reduceJobsByPriority` for a non-negative removal request
and non-negative job counts: each job gives up `min remaining count`,
cascading builders → lumberjacks → farmers → miners. -/
theorem reduceJobsByPriority_eq (jobs : JobCounts) (r : Int)
    (hr : 0 ≤ r) (hb : 0 ≤ jobs.builders) (hl : 0 ≤ jobs.lumberjacks)
    (hf : 0 ≤ jobs.farmers) (hm : 0 ≤ jobs.miners) :
    (reduceJobsByPriority jobs r).builders = jobs.builders - min r jobs.builders ∧
    (reduceJobsByPriority jobs r).lumberjacks =
      jobs.lumberjacks - min (r - min r jobs.builders) jobs.lumberjacks ∧
    (reduceJobsByPriority jobs r).farmers =
      jobs.farmers -
        min (r - min r jobs.builders - min (r - min r jobs.builders) jobs.lumberjacks)
          jobs.farmers ∧
    (reduceJobsByPriority jobs r).miners =
      jobs.miners -
        min (r - min r jobs.builders - min (r - min r jobs.builders) jobs.lumberjacks -
              min (r - min r jobs.builders - min (r - min r jobs.builders) jobs.lumberjacks)
                jobs.farmers)
          jobs.miners := by
  unfold reduceJobsByPriority
  dsimp only
  split_ifs <;> simp_all <;> omega

theorem applyAction_inv {s : GameState} {qa : QueuedAction} (hs : StateInv s)
    (hp : validateActionParams qa.action = .valid)
    (hv : validateActionAtApplyTime s qa = .valid) :
    StateInv (applyAction s qa) := by
  obtain ⟨qa, t⟩ := qa
  unfold StateInv at hs ⊢
  cases qa <;>
    simp only [validateActionParams] at hp <;>
    simp only [validateActionAtApplyTime] at hv <;>
    simp only [applyAction] <;>
    (try split_ifs at hp hv) <;>
    simp_all <;>
    (try omega)

theorem processActions_inv {l : List QueuedAction} {s : GameState} (hs : StateInv s)
    (hl : ∀ qa ∈ l, validateActionParams qa.action = .valid) :
    StateInv (processActions s l).1 := by
  induction l generalizing s with
  | nil => simpa [processActions]
  | cons qa rest ih =>
      simp only [processActions]
      cases hv : validateActionAtApplyTime s qa with
      | invalid err => exact ih hs (fun qb hqb => hl qb (List.mem_cons_of_mem _ hqb))
      | valid =>
          exact ih (applyAction_inv hs (hl qa (List.mem_cons_self _ _)) hv)
            (fun qb hqb => hl qb (List.mem_cons_of_mem _ hqb))

theorem applyProduction_inv {s : GameState} (hs : StateInv s) :
    StateInv (applyProduction s) := by
  unfold StateInv at hs ⊢
  simp only [applyProduction]
  constructor
  · have : 0 ≤ s.jobs.miners * 2 := by omega
    omega
  · constructor
    · have : 0 ≤ s.jobs.farmers * 3 := by omega
      omega
    · constructor
      · have : 0 ≤ s.jobs.lumberjacks * 1 := by omega
        omega
      · simp_all

theorem applyConstruction_inv {s : GameState} (hs : StateInv s) :
    StateInv (applyConstruction s) := by
  unfold StateInv at hs ⊢
  unfold applyConstruction
  split
  · exact hs
  · dsimp only
    rw [constructionLoop_eq]
    split <;> simp_all <;> omega

theorem applyUpkeep_inv {s : GameState} (hs : StateInv s) :
    StateInv (applyUpkeep s) := by
  unfold StateInv at hs ⊢
  unfold applyUpkeep
  dsimp only
  split
  · split
    · rename_i hneg hlost
      obtain ⟨h1, h2, h3, h4⟩ :=
        reduceJobsByPriority_eq s.jobs ((-(s.food - s.workers) + 1) / 2)
          (by omega) (by omega) (by omega) (by omega) (by omega)
      simp_all
      (try omega)
    · simp_all
      (try omega)
  · simp_all
    (try omega)

theorem applyTaxes_inv {s : GameState} (hs : StateInv s) :
    StateInv (applyTaxes s) := by
  unfold StateInv at hs ⊢
  unfold applyTaxes
  dsimp only
  split <;> simp_all <;> (try omega)

theorem clampResources_inv {s : GameState} (hs : StateInv s) :
    StateInv (clampResources s) := by
  unfold StateInv at hs ⊢
  simp only [clampResources]
  simp_all
  (try omega)

/-- Under the non-negativity invariant, the clamp is the identity. -/
theorem clampResources_id {s : GameState} (hs : StateInv s) : clampResources s = s := by
  obtain ⟨turn, gold, food, wood, workers, castleLevel, jobs, upg⟩ := s
  unfold StateInv at hs
  simp only [clampResources] at *
  simp_all
  (try omega)

theorem preClampTick_inv {e : Engine} (hs : StateInv e.state)
    (hq : AdmittedQueue e.actionQueue) :
    StateInv (preClampTick e).1.state := by
  unfold preClampTick
  dsimp only
  apply applyTaxes_inv
  apply applyUpkeep_inv
  apply applyConstruction_inv
  apply applyProduction_inv
  have h1 : StateInv (applyQueuedActions e).1.state := by
    unfold applyQueuedActions
    dsimp only
    exact processActions_inv hs
      (fun qa hqa => hq qa (mem_of_mem_sortActionQueue hqa))
  unfold StateInv at h1 ⊢
  simpa using h1

theorem tick_inv {e : Engine} (hs : StateInv e.state)
    (hq : AdmittedQueue e.actionQueue) :
    StateInv (tick e).1.state := by
  unfold tick
  dsimp only
  exact clampResources_inv (preClampTick_inv hs hq)

theorem tick_queue_empty (e : Engine) : (tick e).1.actionQueue = [] := rfl

theorem applyUpkeep_sum {s : GameState}
    (hb : 0 ≤ s.jobs.builders) (hl : 0 ≤ s.jobs.lumberjacks)
    (hf : 0 ≤ s.jobs.farmers) (hm : 0 ≤ s.jobs.miners)
    (hsum : jobsSum s.jobs = s.workers) :
    jobsSum (applyUpkeep s).jobs = (applyUpkeep s).workers := by
  unfold jobsSum at hsum ⊢
  unfold applyUpkeep
  dsimp only
  split
  · split
    · rename_i hneg hlost
      obtain ⟨h1, h2, h3, h4⟩ :=
        reduceJobsByPriority_eq s.jobs ((-(s.food - s.workers) + 1) / 2)
          (by omega) (by omega) (by omega) (by omega) (by omega)
      simp_all
      omega
    · simp_all
      omega
  · simpa using hsum

theorem processActions_prio1_jobs {l : List QueuedAction} {s : GameState}
    (h : ∀ qa ∈ l, actionPriority qa.action = 1) :
    (processActions s l).1.jobs = s.jobs := by
  induction l generalizing s with
  | nil => simp [processActions]
  | cons qa rest ih =>
      have hqa := h qa (List.mem_cons_self _ _)
      have hrest : ∀ qb ∈ rest, actionPriority qb.action = 1 :=
        fun qb hqb => h qb (List.mem_cons_of_mem _ hqb)
      simp only [processActions]
      cases hv : validateActionAtApplyTime s qa with
      | invalid err => exact ih hrest
      | valid =>
          have hjobs : (applyAction s qa).jobs = s.jobs := by
            obtain ⟨a, t⟩ := qa
            cases a <;> simp_all [actionPriority, applyAction]
          rw [show (processActions (applyAction s qa) rest).1.jobs = s.jobs from
            (ih hrest).trans hjobs]

theorem applyAction_no_workforce_step {s : GameState} {qa : QueuedAction}
    (h1 : actionPriority qa.action ≠ 1)
    (h2 : validateActionParams qa.action = .valid)
    (hv : validateActionAtApplyTime s qa = .valid)
    (hb : 0 ≤ s.jobs.builders) (hl : 0 ≤ s.jobs.lumberjacks)
    (hf : 0 ≤ s.jobs.farmers) (hm : 0 ≤ s.jobs.miners)
    (hsum : jobsSum s.jobs = s.workers) :
    0 ≤ (applyAction s qa).jobs.builders ∧ 0 ≤ (applyAction s qa).jobs.lumberjacks ∧
      0 ≤ (applyAction s qa).jobs.farmers ∧ 0 ≤ (applyAction s qa).jobs.miners ∧
      jobsSum (applyAction s qa).jobs = (applyAction s qa).workers := by
  obtain ⟨a, t⟩ := qa
  cases a with
  | assignJobs m f lj b =>
      simp only [validateActionParams] at h2
      simp only [validateActionAtApplyTime] at hv
      have hparams : ¬(m < 0 ∨ f < 0 ∨ lj < 0 ∨ b < 0) := by
        intro hc
        rw [if_pos hc] at h2
        exact absurd h2 (by simp)
      have hs : m + f + lj + b = s.workers := by
        by_contra hc
        rw [if_pos hc] at hv
        exact absurd hv (by simp)
      simp only [applyAction, jobsSum]
      refine ⟨by omega, by omega, by omega, by omega, by simpa using hs⟩
  | hire n => exact absurd rfl h1
  | fire n => exact absurd rfl h1
  | buyFood n => simpa [applyAction, jobsSum] using ⟨hb, hl, hf, hm, hsum⟩
  | startUpgrade => simpa [applyAction, jobsSum] using ⟨hb, hl, hf, hm, hsum⟩
  | unknownKind k => simpa [applyAction, jobsSum] using ⟨hb, hl, hf, hm, hsum⟩

theorem processActions_no_workforce {l : List QueuedAction} {s : GameState}
    (hnw : ∀ qa ∈ l, actionPriority qa.action ≠ 1)
    (hadm : ∀ qa ∈ l, validateActionParams qa.action = .valid)
    (hb : 0 ≤ s.jobs.builders) (hl : 0 ≤ s.jobs.lumberjacks)
    (hf : 0 ≤ s.jobs.farmers) (hm : 0 ≤ s.jobs.miners)
    (hsum : jobsSum s.jobs = s.workers) :
    jobsSum (processActions s l).1.jobs = (processActions s l).1.workers ∧
      0 ≤ (processActions s l).1.jobs.builders ∧
      0 ≤ (processActions s l).1.jobs.lumberjacks ∧
      0 ≤ (processActions s l).1.jobs.farmers ∧
      0 ≤ (processActions s l).1.jobs.miners := by
  induction l generalizing s with
  | nil => simp_all [processActions]
  | cons qa rest ih =>
      have h1 := hnw qa (List.mem_cons_self _ _)
      have h2 := hadm qa (List.mem_cons_self _ _)
      have hrest1 : ∀ qb ∈ rest, actionPriority qb.action ≠ 1 :=
        fun qb hqb => hnw qb (List.mem_cons_of_mem _ hqb)
      have hrest2 : ∀ qb ∈ rest, validateActionParams qb.action = .valid :=
        fun qb hqb => hadm qb (List.mem_cons_of_mem _ hqb)
      simp only [processActions]
      cases hv : validateActionAtApplyTime s qa with
      | invalid err => exact ih hrest1 hrest2 hb hl hf hm hsum
      | valid =>
          obtain ⟨sb, sl, sf, sm, ss⟩ :=
            applyAction_no_workforce_step h1 h2 hv hb hl hf hm hsum
          exact ih hrest1 hrest2 sb sl sf sm ss

theorem processActions_assign_run {l : List QueuedAction} {s : GameState}
    (hpr : ∀ qa ∈ l, actionPriority qa.action = 2)
    (hadm : ∀ qa ∈ l, validateActionParams qa.action = .valid) :
    (processActions s l).1.workers = s.workers ∧
      ((processActions s l).2 = [] → (processActions s l).1 = s) ∧
      ((processActions s l).2 ≠ [] →
        jobsSum (processActions s l).1.jobs = (processActions s l).1.workers ∧
          0 ≤ (processActions s l).1.jobs.builders ∧
          0 ≤ (processActions s l).1.jobs.lumberjacks ∧
          0 ≤ (processActions s l).1.jobs.farmers ∧
          0 ≤ (processActions s l).1.jobs.miners) := by
  induction l generalizing s with
  | nil => simp [processActions]
  | cons qa rest ih =>
      have h1 := hpr qa (List.mem_cons_self _ _)
      have h2 := hadm qa (List.mem_cons_self _ _)
      have hrest1 : ∀ qb ∈ rest, actionPriority qb.action = 2 :=
        fun qb hqb => hpr qb (List.mem_cons_of_mem _ hqb)
      have hrest2 : ∀ qb ∈ rest, validateActionParams qb.action = .valid :=
        fun qb hqb => hadm qb (List.mem_cons_of_mem _ hqb)
      obtain ⟨a, t⟩ := qa
      cases a <;> simp only [actionPriority] at h1 <;> (try omega)
      rename_i m f lj b
      simp only [processActions]
      cases hv : validateActionAtApplyTime s ⟨Action.assignJobs m f lj b, t⟩ with
      | invalid err => exact ih hrest1 hrest2
      | valid =>
          simp only [validateActionParams] at h2
          simp only [validateActionAtApplyTime] at hv
          have hparams : ¬(m < 0 ∨ f < 0 ∨ lj < 0 ∨ b < 0) := by
            intro hc
            rw [if_pos hc] at h2
            exact absurd h2 (by simp)
          have hsum : m + f + lj + b = s.workers := by
            by_contra hc
            rw [if_pos hc] at hv
            exact absurd hv (by simp)
          obtain ⟨ihw, ihe, ihne⟩ :=
            ih (s := applyAction s ⟨Action.assignJobs m f lj b, t⟩) hrest1 hrest2
          refine ⟨ihw.trans (by simp [applyAction]), by simp, fun _ => ?_⟩
          by_cases hP :
              (processActions (applyAction s ⟨Action.assignJobs m f lj b, t⟩) rest).2 = []
          · rw [ihe hP]
            simp [applyAction, jobsSum]
            omega
          · exact ihne hP

theorem processActions_prio_ge3_frame {l : List QueuedAction} {s : GameState}
    (h : ∀ qa ∈ l, actionPriority qa.action = 3 ∨ actionPriority qa.action = 4 ∨
        actionPriority qa.action = 999) :
    (processActions s l).1.jobs = s.jobs ∧ (processActions s l).1.workers = s.workers := by
  induction l generalizing s with
  | nil => simp [processActions]
  | cons qa rest ih =>
      have hqa := h qa (List.mem_cons_self _ _)
      have hrest : ∀ qb ∈ rest, actionPriority qb.action = 3 ∨
          actionPriority qb.action = 4 ∨ actionPriority qb.action = 999 :=
        fun qb hqb => h qb (List.mem_cons_of_mem _ hqb)
      simp only [processActions]
      cases hv : validateActionAtApplyTime s qa with
      | invalid err => exact ih hrest
      | valid =>
          have hfr : (applyAction s qa).jobs = s.jobs ∧
              (applyAction s qa).workers = s.workers := by
            obtain ⟨a, t⟩ := qa
            cases a <;> simp_all [actionPriority, applyAction]
          obtain ⟨ihj, ihw⟩ := ih (s := applyAction s qa) hrest
          exact ⟨ihj.trans hfr.1, ihw.trans hfr.2⟩

theorem actionPriority_ne_one_iff (a : Action) :
    actionPriority a ≠ 1 ↔
      (∀ n : Int, a ≠ Action.hire n) ∧ (∀ n : Int, a ≠ Action.fire n) := by
  cases a <;> simp [actionPriority]

/-- The resolution phases that follow the apply phase preserve the jobs-sum
invariant (given non-negative job counts on entry). -/
theorem phases_preserve_sum {s0 : GameState}
    (hb : 0 ≤ s0.jobs.builders) (hl : 0 ≤ s0.jobs.lumberjacks)
    (hf : 0 ≤ s0.jobs.farmers) (hm : 0 ≤ s0.jobs.miners)
    (hsum : jobsSum s0.jobs = s0.workers) :
    jobsSum (clampResources (applyTaxes (applyUpkeep
        (applyConstruction (applyProduction s0))))).jobs =
      (clampResources (applyTaxes (applyUpkeep
        (applyConstruction (applyProduction s0))))).workers := by
  obtain ⟨pj, pw, -⟩ := applyProduction_frame s0
  obtain ⟨cj, cw⟩ := applyConstruction_frame (applyProduction s0)
  have hu : jobsSum (applyUpkeep (applyConstruction (applyProduction s0))).jobs =
      (applyUpkeep (applyConstruction (applyProduction s0))).workers := by
    apply applyUpkeep_sum <;> rw [cj, pj] <;> (try rw [cw, pw]) <;> simp_all
  obtain ⟨tj, tw, -, -, -⟩ := applyTaxes_frame (applyUpkeep
    (applyConstruction (applyProduction s0)))
  obtain ⟨gj, gw, -⟩ := clampResources_frame (applyTaxes (applyUpkeep
    (applyConstruction (applyProduction s0))))
  rw [gj, gw, tj, tw]
  exact hu

theorem tick_state_eq (e : Engine) :
    (tick e).1.state =
      clampResources (applyTaxes (applyUpkeep (applyConstruction (applyProduction
        { (applyQueuedActions e).1.state with
            turn := (applyQueuedActions e).1.state.turn + 1 })))) := rfl

theorem tick_applied_eq (e : Engine) : (tick e).2 = (applyQueuedActions e).2 := rfl

theorem applyQueuedActions_state_eq (e : Engine) :
    (applyQueuedActions e).1.state =
      (processActions e.state (sortActionQueue e.actionQueue)).1 := rfl

theorem applyQueuedActions_applied_eq (e : Engine) :
    (applyQueuedActions e).2 =
      (processActions e.state (sortActionQueue e.actionQueue)).2 := rfl

/-- If the apply phase of a tick applied at least one `AssignJobs`, the state
it leaves satisfies the jobs-sum invariant with non-negative job counts: the
sort guarantees every workforce change (priority 1) precedes every applied
assignment (priority 2), and later priority classes touch neither jobs nor
workers. -/
theorem applyQueuedActions_assign_sum {e : Engine}
    (hadm : AdmittedQueue e.actionQueue)
    {m f lj b : Int}
    (hassign : Action.assignJobs m f lj b ∈ (applyQueuedActions e).2) :
    jobsSum (applyQueuedActions e).1.state.jobs = (applyQueuedActions e).1.state.workers ∧
      0 ≤ (applyQueuedActions e).1.state.jobs.builders ∧
      0 ≤ (applyQueuedActions e).1.state.jobs.lumberjacks ∧
      0 ≤ (applyQueuedActions e).1.state.jobs.farmers ∧
      0 ≤ (applyQueuedActions e).1.state.jobs.miners := by
  rw [applyQueuedActions_applied_eq] at hassign
  rw [applyQueuedActions_state_eq]
  have hsort : sortActionQueue e.actionQueue =
      e.actionQueue.filter (fun qa => actionPriority qa.action = 1) ++
        (e.actionQueue.filter (fun qa => actionPriority qa.action = 2) ++
          (e.actionQueue.filter (fun qa => actionPriority qa.action = 3) ++
            (e.actionQueue.filter (fun qa => actionPriority qa.action = 4) ++
              e.actionQueue.filter (fun qa => actionPriority qa.action = 999)))) := by
    simp [sortActionQueue, List.append_assoc]
  rw [hsort] at hassign ⊢
  rw [processActions_append] at hassign ⊢
  dsimp only at hassign ⊢
  rw [processActions_append] at hassign ⊢
  dsimp only at hassign ⊢
  have hl2pr : ∀ qa ∈ e.actionQueue.filter (fun qa => actionPriority qa.action = 2),
      actionPriority qa.action = 2 := by
    intro qa hqa
    simpa using (List.mem_filter.mp hqa).2
  have hl2adm : ∀ qa ∈ e.actionQueue.filter (fun qa => actionPriority qa.action = 2),
      validateActionParams qa.action = .valid :=
    fun qa hqa => hadm qa (List.mem_filter.mp hqa).1
  have hl3pr : ∀ qa ∈ e.actionQueue.filter (fun qa => actionPriority qa.action = 3) ++
      (e.actionQueue.filter (fun qa => actionPriority qa.action = 4) ++
        e.actionQueue.filter (fun qa => actionPriority qa.action = 999)),
      actionPriority qa.action = 3 ∨ actionPriority qa.action = 4 ∨
        actionPriority qa.action = 999 := by
    intro qa hqa
    simp only [List.mem_append, List.mem_filter] at hqa
    rcases hqa with h | h | h <;> simp_all
  -- the applied assignment cannot come from the priority-1 segment ...
  have hnot1 : Action.assignJobs m f lj b ∉
      (processActions e.state
        (e.actionQueue.filter (fun qa => actionPriority qa.action = 1))).2 := by
    intro hmem
    obtain ⟨qa, hqa, hqaeq⟩ := processActions_applied_sourced _ _ _ hmem
    have hpr1 : actionPriority qa.action = 1 := by
      simpa using (List.mem_filter.mp hqa).2
    rw [hqaeq] at hpr1
    simp [actionPriority] at hpr1
  -- ... nor from the priority-3/4/999 segment ...
  have hnot3 : ∀ s' : GameState, Action.assignJobs m f lj b ∉
      (processActions s'
        (e.actionQueue.filter (fun qa => actionPriority qa.action = 3) ++
          (e.actionQueue.filter (fun qa => actionPriority qa.action = 4) ++
            e.actionQueue.filter (fun qa => actionPriority qa.action = 999)))).2 := by
    intro s' hmem
    obtain ⟨qa, hqa, hqaeq⟩ := processActions_applied_sourced _ _ _ hmem
    have := hl3pr qa hqa
    rw [hqaeq] at this
    simp [actionPriority] at this
  -- ... so the priority-2 segment applied it.
  simp only [List.mem_append] at hassign
  rcases hassign with hmem | hmem | hmem
  · exact absurd hmem hnot1
  · obtain ⟨-, -, hne⟩ := processActions_assign_run
      (s := (processActions e.state
        (e.actionQueue.filter (fun qa => actionPriority qa.action = 1))).1)
      hl2pr hl2adm
    obtain ⟨hsum2, hb2, hl2, hf2, hm2⟩ := hne (List.ne_nil_of_mem hmem)
    obtain ⟨fj, fw⟩ := processActions_prio_ge3_frame
      (s := (processActions (processActions e.state
        (e.actionQueue.filter (fun qa => actionPriority qa.action = 1))).1
          (e.actionQueue.filter (fun qa => actionPriority qa.action = 2))).1) hl3pr
    rw [fj, fw]
    exact ⟨hsum2, hb2, hl2, hf2, hm2⟩
  · exact absurd hmem (hnot3 _)

/-- Every reachable engine satisfies the state invariant and carries only
admitted actions in its queue. -/
theorem reachable_inv {e : Engine} (he : Reachable e) :
    StateInv e.state ∧ AdmittedQueue e.actionQueue := by
  induction he with
  | init =>
      constructor
      · decide
      · intro qa hqa
        simp [initialEngine] at hqa
  | enqueue e a _ ih =>
      obtain ⟨hs, hq⟩ := ih
      cases hva : validateActionParams a with
      | invalid err => simp only [enqueueAction, hva]; exact ⟨hs, hq⟩
      | valid =>
          simp only [enqueueAction, hva]
          refine ⟨hs, ?_⟩
          intro qa hqa
          simp only [List.mem_append, List.mem_singleton] at hqa
          rcases hqa with hqa | rfl
          · exact hq qa hqa
          · exact hva
  | step e _ ih =>
      obtain ⟨hs, hq⟩ := ih
      refine ⟨tick_inv hs hq, ?_⟩
      rw [tick_queue_empty]
      intro qa hqa
      simp at hqa

theorem count_bucket (q : List QueuedAction) (a : QueuedAction) (k : Int) :
    (q.filter (fun qa => actionPriority qa.action = k)).count a =
      if actionPriority a.action = k then q.count a else 0 := by
  by_cases h : actionPriority a.action = k
  · rw [if_pos h, List.count_filter (by simp [h])]
  · rw [if_neg h]
    apply List.count_eq_zero.mpr
    intro hmem
    exact h (by simpa using (List.mem_filter.mp hmem).2)

/-- The sorted queue is a permutation of the submitted queue. -/
theorem sortActionQueue_perm (q : List QueuedAction) :
    List.Perm (sortActionQueue q) q := by
  rw [List.perm_iff_count]
  intro a
  simp only [sortActionQueue, List.count_append, count_bucket]
  rcases actionPriority_cases a.action with h | h | h | h | h <;> simp [h]

/-- The sorted queue is ordered by non-decreasing priority. -/
theorem sortActionQueue_sorted (q : List QueuedAction) :
    (sortActionQueue q).Pairwise
      (fun a b => actionPriority a.action ≤ actionPriority b.action) := by
  have hmemk : ∀ (k : Int) (qa : QueuedAction),
      qa ∈ q.filter (fun qa => actionPriority qa.action = k) →
        actionPriority qa.action = k := by
    intro k qa h
    simpa using (List.mem_filter.mp h).2
  have hb : ∀ k : Int, (q.filter (fun qa => actionPriority qa.action = k)).Pairwise
      (fun a b => actionPriority a.action ≤ actionPriority b.action) := by
    intro k
    apply List.pairwise_of_forall_mem_list
    intro a ha b hbm
    have h1 := hmemk k a ha
    have h2 := hmemk k b hbm
    omega
  unfold sortActionQueue
  simp only [List.append_assoc]
  rw [List.pairwise_append]
  refine ⟨hb 1, ?_, ?_⟩
  · rw [List.pairwise_append]
    refine ⟨hb 2, ?_, ?_⟩
    · rw [List.pairwise_append]
      refine ⟨hb 3, ?_, ?_⟩
      · rw [List.pairwise_append]
        refine ⟨hb 4, hb 999, ?_⟩
        intro a ha b hbm
        have h1 := hmemk 4 a ha
        have h2 := hmemk 999 b hbm
        omega
      · intro a ha b hbm
        have h1 := hmemk 3 a ha
        rcases List.mem_append.mp hbm with h | h
        · have h2 := hmemk 4 b h
          omega
        · have h2 := hmemk 999 b h
          omega
    · intro a ha b hbm
      have h1 := hmemk 2 a ha
      rcases List.mem_append.mp hbm with h | h
      · have h2 := hmemk 3 b h
        omega
      · rcases List.mem_append.mp h with h' | h'
        · have h2 := hmemk 4 b h'
          omega
        · have h2 := hmemk 999 b h'
          omega
  · intro a ha b hbm
    have h1 := hmemk 1 a ha
    rcases List.mem_append.mp hbm with h | h
    · have h2 := hmemk 2 b h
      omega
    · rcases List.mem_append.mp h with h' | h'
      · have h2 := hmemk 3 b h'
        omega
      · rcases List.mem_append.mp h' with h'' | h''
        · have h2 := hmemk 4 b h''
          omega
        · have h2 := hmemk 999 b h''
          omega

/-- Stability: within one priority class, the sorted queue keeps the
original submission order. -/
theorem sortActionQueue_stable (q : List QueuedAction) (k : Int) :
    (sortActionQueue q).filter (fun qa => actionPriority qa.action = k) =
      q.filter (fun qa => actionPriority qa.action = k) := by
  have hsame :
      (q.filter (fun qa => actionPriority qa.action = k)).filter
          (fun qa => actionPriority qa.action = k) =
        q.filter (fun qa => actionPriority qa.action = k) := by
    rw [List.filter_filter]
    apply List.filter_congr
    intro a _
    simp
  have hbucket : ∀ i : Int,
      (q.filter (fun qa => actionPriority qa.action = i)).filter
          (fun qa => actionPriority qa.action = k) =
        if k = i then q.filter (fun qa => actionPriority qa.action = k) else [] := by
    intro i
    by_cases h : k = i
    · subst h
      rw [if_pos rfl]
      exact hsame
    · rw [if_neg h]
      apply List.filter_eq_nil_iff.mpr
      intro a ha
      have h2 : actionPriority a.action = i := by
        simpa using (List.mem_filter.mp ha).2
      simp only [decide_eq_true_eq]
      omega
  simp only [sortActionQueue, List.filter_append, hbucket]
  by_cases h1 : k = 1
  · subst h1
    simp
  by_cases h2 : k = 2
  · subst h2
    simp
  by_cases h3 : k = 3
  · subst h3
    simp
  by_cases h4 : k = 4
  · subst h4
    simp
  by_cases h5 : k = 999
  · subst h5
    simp
  rw [if_neg h1, if_neg h2, if_neg h3, if_neg h4, if_neg h5]
  have : q.filter (fun qa => actionPriority qa.action = k) = [] := by
    apply List.filter_eq_nil_iff.mpr
    intro a _
    simp only [decide_eq_true_eq]
    rcases actionPriority_cases a.action with h | h | h | h | h <;> omega
  rw [this]
  simp

/-! ### Claims -/

/-- C1 (counterexample): the claim "for every reachable State, at the end of
every completed tick `jobs.miners + jobs.farmers + jobs.lumberjacks +
jobs.builders = workers`" is false: ticking the freshly constructed engine
(whose default state has jobs summing to 4 but 5 workers, and whose queue is
empty) completes a tick whose end state still has jobs summing to 4 with 5
workers. -/
theorem C1_jobs_sum_counterexample :
    Reachable (tick initialEngine).1 ∧
      jobsSum (tick initialEngine).1.state.jobs ≠ (tick initialEngine).1.state.workers :=
  ⟨Reachable.step _ Reachable.init, by decide⟩

/-- C1 (amended): at the end of a completed tick of a reachable engine, the
job counts sum to `workers` provided the tick's queue contained no `Hire` or
`Fire` and the invariant already held when the tick started, or the tick
applied at least one `AssignJobs` (which re-validates the sum against the
already-updated workforce). -/
theorem C1_jobs_sum_end_of_tick (e : Engine) (he : Reachable e) :
    ((∀ qa ∈ e.actionQueue,
        (∀ n : Int, qa.action ≠ Action.hire n) ∧ (∀ n : Int, qa.action ≠ Action.fire n)) →
      jobsSum e.state.jobs = e.state.workers →
      jobsSum (tick e).1.state.jobs = (tick e).1.state.workers) ∧
    ((∃ m f lj b : Int, Action.assignJobs m f lj b ∈ (tick e).2) →
      jobsSum (tick e).1.state.jobs = (tick e).1.state.workers) := by
  obtain ⟨hs, hq⟩ := reachable_inv he
  obtain ⟨-, -, -, -, -, hmM, hfF, hlL, hbB⟩ := hs
  constructor
  · intro hnohf hsum
    have hpr : ∀ qa ∈ sortActionQueue e.actionQueue, actionPriority qa.action ≠ 1 :=
      fun qa hqa =>
        (actionPriority_ne_one_iff qa.action).mpr (hnohf qa (mem_of_mem_sortActionQueue hqa))
    have hadm : ∀ qa ∈ sortActionQueue e.actionQueue,
        validateActionParams qa.action = .valid :=
      fun qa hqa => hq qa (mem_of_mem_sortActionQueue hqa)
    obtain ⟨psum, pb, pl, pf, pm⟩ :=
      processActions_no_workforce (s := e.state) hpr hadm hbB hlL hfF hmM hsum
    rw [tick_state_eq]
    exact phases_preserve_sum pb pl pf pm psum
  · rintro ⟨m, f, lj, b, hmem⟩
    rw [tick_applied_eq] at hmem
    obtain ⟨hsum2, hb2, hl2, hf2, hm2⟩ := applyQueuedActions_assign_sum hq hmem
    rw [tick_state_eq]
    exact phases_preserve_sum hb2 hl2 hf2 hm2 hsum2

/-- Witness for C1 (amended) at a concrete reachable engine: enqueue
`AssignJobs 2 1 1 1` (summing to the 5 default workers) on the fresh engine
and tick; the assignment is applied, so the invariant holds at tick end. -/
theorem C1_jobs_sum_end_of_tick_witness :
    jobsSum (tick (enqueueAction initialEngine (Action.assignJobs 2 1 1 1)).1).1.state.jobs =
      (tick (enqueueAction initialEngine (Action.assignJobs 2 1 1 1)).1).1.state.workers :=
  (C1_jobs_sum_end_of_tick _ (Reachable.enqueue _ _ Reachable.init)).2
    ⟨2, 1, 1, 1, by decide⟩

/-- C10: the fixed default initial state created at engine construction is
exactly turn 0, gold 25, food 18, wood 0, workers 5, castleLevel 0, jobs
{miners 2, farmers 1, lumberjacks 1, builders 0}, and no active upgrade. -/
theorem C10_default_initial_state :
    defaultInitialState.turn = 0 ∧ defaultInitialState.gold = 25 ∧
      defaultInitialState.food = 18 ∧ defaultInitialState.wood = 0 ∧
      defaultInitialState.workers = 5 ∧ defaultInitialState.castleLevel = 0 ∧
      defaultInitialState.jobs =
        { miners := 2, farmers := 1, lumberjacks := 1, builders := 0 } ∧
      defaultInitialState.upgradeInProgress.active = false := by
  decide

/-- C9: gold, food and wood are non-negative after `advance()` returns (for
every engine, reachable or not: the final clamp floors them at 0). -/
theorem C9_resources_nonneg_after_tick (e : Engine) :
    0 ≤ (tick e).1.state.gold ∧ 0 ≤ (tick e).1.state.food ∧
      0 ≤ (tick e).1.state.wood := by
  rw [tick_state_eq]
  exact ⟨le_max_left 0 _, le_max_left 0 _, le_max_left 0 _⟩

/-- C8: on every reachable engine, the state reaching the clamp step of a
tick already has non-negative gold, food and wood, so the floor-at-0 clamp
changes nothing. -/
theorem C8_clamp_never_triggers (e : Engine) (he : Reachable e) :
    clampResources (preClampTick e).1.state = (preClampTick e).1.state := by
  obtain ⟨hs, hq⟩ := reachable_inv he
  exact clampResources_id (preClampTick_inv hs hq)

/-- Witness for C8 at the freshly constructed engine. -/
theorem C8_clamp_never_triggers_witness :
    clampResources (preClampTick initialEngine).1.state =
      (preClampTick initialEngine).1.state :=
  C8_clamp_never_triggers _ Reachable.init

/-- C7: `enqueueAction` never touches the `GameState`; on syntactic success it
appends the action at the back of the queue (FIFO) and reports application at
`turn + 1`; on failure it reports the error and leaves the engine unchanged;
and the syntactic validation accepts exactly the known action kinds with all
numeric parameters `≥ 0` (integrality being enforced by the `Int` type),
rejecting unknown kinds. -/
theorem C7_enqueue_contract :
    (∀ (e : Engine) (a : Action), (enqueueAction e a).1.state = e.state) ∧
    (∀ (e : Engine) (a : Action), validateActionParams a = .valid →
      (enqueueAction e a).1.actionQueue =
          e.actionQueue ++ [{ action := a, queuedAtTurn := e.state.turn }] ∧
        (enqueueAction e a).2 =
          { queued := true, applyAtTurn := some (e.state.turn + 1), error := none }) ∧
    (∀ (e : Engine) (a : Action) (err : String), validateActionParams a = .invalid err →
      (enqueueAction e a).1 = e ∧
        (enqueueAction e a).2 = { queued := false, applyAtTurn := none, error := some err }) ∧
    (∀ m f lj b : Int, validateActionParams (Action.assignJobs m f lj b) = .valid ↔
      0 ≤ m ∧ 0 ≤ f ∧ 0 ≤ lj ∧ 0 ≤ b) ∧
    (∀ n : Int, validateActionParams (Action.hire n) = .valid ↔ 0 ≤ n) ∧
    (∀ n : Int, validateActionParams (Action.fire n) = .valid ↔ 0 ≤ n) ∧
    (∀ n : Int, validateActionParams (Action.buyFood n) = .valid ↔ 0 ≤ n) ∧
    validateActionParams Action.startUpgrade = .valid ∧
    (∀ k : String, validateActionParams (Action.unknownKind k) ≠ .valid) := by
  refine ⟨?_, ?_, ?_, ?_, ?_, ?_, ?_, rfl, ?_⟩
  · intro e a
    cases hva : validateActionParams a <;> simp [enqueueAction, hva]
  · intro e a h
    simp [enqueueAction, h]
  · intro e a err h
    simp [enqueueAction, h]
  · intro m f lj b
    simp only [validateActionParams]
    split_ifs with h <;> simp <;> omega
  · intro n
    simp only [validateActionParams]
    split_ifs with h <;> simp <;> omega
  · intro n
    simp only [validateActionParams]
    split_ifs with h <;> simp <;> omega
  · intro n
    simp only [validateActionParams]
    split_ifs with h <;> simp <;> omega
  · intro k
    simp [validateActionParams]

/-- Witness for C7: enqueueing `Hire 1` on the fresh engine leaves the state
alone, appends the stamped action, and reports application at turn 1. -/
theorem C7_enqueue_contract_witness :
    (enqueueAction initialEngine (Action.hire 1)).1.state = initialEngine.state ∧
      (enqueueAction initialEngine (Action.hire 1)).1.actionQueue =
        [{ action := Action.hire 1, queuedAtTurn := 0 }] ∧
      (enqueueAction initialEngine (Action.hire 1)).2 =
        { queued := true, applyAtTurn := some 1, error := none } := by
  refine ⟨C7_enqueue_contract.1 initialEngine (Action.hire 1), ?_⟩
  have h := C7_enqueue_contract.2.1 initialEngine (Action.hire 1) (by decide)
  simpa [initialEngine, defaultInitialState] using h

/-- C6: an action that fails apply-time validation is skipped without touching
the state and without stopping later actions of the same tick; the queue is
cleared by every tick, so a rejected action is never retried; and in a state
with gold 5, castle level 0 and no active upgrade, `StartUpgrade` is rejected
with a reason citing need 10 and have 5 while the other actions of that tick
still apply. -/
theorem C6_rejection_is_local :
    (∀ (s : GameState) (qa : QueuedAction) (rest : List QueuedAction) (err : String),
      validateActionAtApplyTime s qa = .invalid err →
        processActions s (qa :: rest) = processActions s rest) ∧
    (∀ e : Engine, (tick e).1.actionQueue = []) ∧
    (∀ (s : GameState) (t : Int),
      s.castleLevel = 0 → s.gold = 5 → s.upgradeInProgress.active = false →
        validateActionAtApplyTime s { action := Action.startUpgrade, queuedAtTurn := t } =
          .invalid "Not enough gold to start upgrade (need 10, have 5)") ∧
    ((applyQueuedActions
        { state := { defaultInitialState with gold := 5 }
          actionQueue := [{ action := Action.startUpgrade, queuedAtTurn := 0 },
                          { action := Action.buyFood 2, queuedAtTurn := 0 }] }).2 =
      [Action.buyFood 2] ∧
      (applyQueuedActions
        { state := { defaultInitialState with gold := 5 }
          actionQueue := [{ action := Action.startUpgrade, queuedAtTurn := 0 },
                          { action := Action.buyFood 2, queuedAtTurn := 0 }] }).1.state =
      { defaultInitialState with gold := 3, food := 20 }) := by
  refine ⟨?_, fun e => rfl, ?_, by decide, by decide⟩
  · intro s qa rest err h
    simp [processActions, h]
  · intro s t h1 h2 h3
    simp only [validateActionAtApplyTime, h1, h2, h3]
    norm_num
    decide

/-- Witness for C6 at the concrete rejection state gold 5 / castle level 0. -/
theorem C6_rejection_is_local_witness :
    validateActionAtApplyTime { defaultInitialState with gold := 5 }
        { action := Action.startUpgrade, queuedAtTurn := 0 } =
      .invalid "Not enough gold to start upgrade (need 10, have 5)" :=
  C6_rejection_is_local.2.2.1 _ 0 rfl rfl rfl

/-- C3: upkeep subtracts `workers` from `food`; with no shortage only food
changes.  On a shortage (`food - workers < 0`, so `shortage =
workers - food ≥ 1`) food is floored at 0, `ceil(shortage/2)` workers are
lost — `(shortage+1)/2`, pinned as the least integer `≥ shortage/2` by the
second conjunct — with the workforce floored at 0, and the job allocation
gives up exactly the workers lost, taken from builders, then lumberjacks,
then farmers, then miners, each reduction capped at that job's current
count.  Boundary instances: workers 4 / food 4 loses nobody; workers 4 /
food 3 leaves 3 workers. -/
theorem C3_upkeep_phase :
    (∀ s : GameState, 0 ≤ s.food - s.workers →
      applyUpkeep s = { s with food := s.food - s.workers }) ∧
    (∀ sh : Int, 1 ≤ sh → sh ≤ 2 * ((sh + 1) / 2) ∧ 2 * ((sh + 1) / 2) ≤ sh + 1) ∧
    (∀ s : GameState, s.food - s.workers < 0 →
      0 ≤ s.jobs.builders → 0 ≤ s.jobs.lumberjacks →
      0 ≤ s.jobs.farmers → 0 ≤ s.jobs.miners →
      (applyUpkeep s).food = 0 ∧
      (applyUpkeep s).workers = max 0 (s.workers - (s.workers - s.food + 1) / 2) ∧
      (applyUpkeep s).jobs.builders =
        s.jobs.builders - min ((s.workers - s.food + 1) / 2) s.jobs.builders ∧
      (applyUpkeep s).jobs.lumberjacks =
        s.jobs.lumberjacks -
          min ((s.workers - s.food + 1) / 2 -
              min ((s.workers - s.food + 1) / 2) s.jobs.builders)
            s.jobs.lumberjacks ∧
      (applyUpkeep s).jobs.farmers =
        s.jobs.farmers -
          min ((s.workers - s.food + 1) / 2 -
              min ((s.workers - s.food + 1) / 2) s.jobs.builders -
              min ((s.workers - s.food + 1) / 2 -
                  min ((s.workers - s.food + 1) / 2) s.jobs.builders)
                s.jobs.lumberjacks)
            s.jobs.farmers ∧
      (applyUpkeep s).jobs.miners =
        s.jobs.miners -
          min ((s.workers - s.food + 1) / 2 -
              min ((s.workers - s.food + 1) / 2) s.jobs.builders -
              min ((s.workers - s.food + 1) / 2 -
                  min ((s.workers - s.food + 1) / 2) s.jobs.builders)
                s.jobs.lumberjacks -
              min ((s.workers - s.food + 1) / 2 -
                  min ((s.workers - s.food + 1) / 2) s.jobs.builders -
                  min ((s.workers - s.food + 1) / 2 -
                      min ((s.workers - s.food + 1) / 2) s.jobs.builders)
                    s.jobs.lumberjacks)
                s.jobs.farmers)
            s.jobs.miners) ∧
    applyUpkeep { defaultInitialState with workers := 4, food := 4 } =
      { defaultInitialState with workers := 4, food := 0 } ∧
    (applyUpkeep { defaultInitialState with workers := 4, food := 3 }).workers = 3 ∧
    (applyUpkeep { defaultInitialState with workers := 4, food := 3 }).food = 0 := by
  refine ⟨?_, ?_, ?_, by decide, by decide, by decide⟩
  · intro s h
    unfold applyUpkeep
    dsimp only
    rw [if_neg (by omega)]
  · intro sh h
    omega
  · intro s hneg hb hl hf hm
    have hofs : -(s.food - s.workers) = s.workers - s.food := by ring
    unfold applyUpkeep
    dsimp only
    rw [if_pos hneg, hofs, if_pos (by omega : (0:Int) < (s.workers - s.food + 1) / 2)]
    obtain ⟨e1, e2, e3, e4⟩ :=
      reduceJobsByPriority_eq s.jobs ((s.workers - s.food + 1) / 2)
        (by omega) hb hl hf hm
    exact ⟨rfl, rfl, e1, e2, e3, e4⟩

/-- Witness for C3 at the shortage boundary workers 4 / food 3. -/
theorem C3_upkeep_phase_witness :
    (applyUpkeep { defaultInitialState with workers := 4, food := 3 }).food = 0 ∧
      (applyUpkeep { defaultInitialState with workers := 4, food := 3 }).workers =
        max 0 (4 - (4 - 3 + 1) / 2) := by
  obtain ⟨h1, h2, -⟩ :=
    C3_upkeep_phase.2.2.1 { defaultInitialState with workers := 4, food := 3 }
      (by decide) (by decide) (by decide) (by decide) (by decide)
  exact ⟨h1, h2⟩

/-- C4: construction is a no-op with no active upgrade; with an active
upgrade the builders loop consumes one wood and adds one progress per
iteration only while wood is positive (so `min builders wood` units overall,
and with wood 0 the state is untouched and no error arises), and after the
loop a progress at or beyond `woodRequired` raises the castle level by
exactly 1, credits the flat 5-gold bonus and deactivates the upgrade, while
a progress still short of it merely records the new progress. -/
theorem C4_construction_phase :
    (∀ (n : Nat) (wood p : Int),
      constructionLoop n wood p =
        (wood - ↑(min n wood.toNat), p + ↑(min n wood.toNat))) ∧
    (∀ s : GameState, s.upgradeInProgress.active = false → applyConstruction s = s) ∧
    (∀ (s : GameState) (p w : Int),
      s.upgradeInProgress.active = true →
      s.upgradeInProgress.progress = some p →
      s.upgradeInProgress.woodRequired = some w →
      (applyConstruction s).wood =
          s.wood - ↑(min s.jobs.builders.toNat s.wood.toNat) ∧
        (w ≤ p + ↑(min s.jobs.builders.toNat s.wood.toNat) →
          (applyConstruction s).castleLevel = s.castleLevel + 1 ∧
            (applyConstruction s).gold = s.gold + 5 ∧
            (applyConstruction s).upgradeInProgress = { active := false }) ∧
        (p + ↑(min s.jobs.builders.toNat s.wood.toNat) < w →
          applyConstruction s =
            { s with
                wood := s.wood - ↑(min s.jobs.builders.toNat s.wood.toNat)
                upgradeInProgress :=
                  { s.upgradeInProgress with
                      progress :=
                        some (p + ↑(min s.jobs.builders.toNat s.wood.toNat)) } })) ∧
    (∀ (s : GameState) (p w : Int),
      s.upgradeInProgress.active = true →
      s.upgradeInProgress.progress = some p →
      s.upgradeInProgress.woodRequired = some w →
      s.wood = 0 → p < w → applyConstruction s = s) := by
  refine ⟨constructionLoop_eq, ?_, ?_, ?_⟩
  · intro s h
    simp [applyConstruction, h]
  · intro s p w ha hp hw
    unfold applyConstruction
    rw [if_neg (by simp [ha])]
    dsimp only
    rw [hp, hw]
    simp only [Option.getD_some]
    rw [constructionLoop_eq]
    dsimp only
    refine ⟨?_, ?_, ?_⟩
    · split <;> rfl
    · intro hge
      rw [if_pos hge]
      exact ⟨rfl, rfl, rfl⟩
    · intro hlt
      rw [if_neg (by omega)]
  · intro s p w ha hp hw hwood hlt
    obtain ⟨t, g, fo, wo, wk, c, j, upg⟩ := s
    obtain ⟨act, tg, pr, wr⟩ := upg
    simp only at ha hp hw hwood
    subst ha hp hw hwood
    unfold applyConstruction
    rw [if_neg (by simp)]
    dsimp only
    simp only [Option.getD_some]
    rw [constructionLoop_eq]
    have hmin : min j.builders.toNat (0:Int).toNat = 0 := by simp
    rw [if_neg (by rw [hmin]; push_cast; omega)]
    simp [hmin]

/-- Witness for C4: an active upgrade with 3 builders and no wood stalls
without changing the state. -/
theorem C4_construction_phase_witness :
    applyConstruction
        { defaultInitialState with
            jobs := { miners := 2, farmers := 1, lumberjacks := 1, builders := 3 }
            upgradeInProgress :=
              { active := true, target := some 1, progress := some 0,
                woodRequired := some 12 } } =
      { defaultInitialState with
          jobs := { miners := 2, farmers := 1, lumberjacks := 1, builders := 3 }
          upgradeInProgress :=
            { active := true, target := some 1, progress := some 0,
              woodRequired := some 12 } } :=
  C4_construction_phase.2.2.2 _ 0 12 rfl rfl rfl rfl (by decide)

/-- C5: the state holds a single upgrade slot, so at most one upgrade is ever
active; a queued `StartUpgrade` validated while an upgrade is active is
rejected with "An upgrade is already in progress" and skipped (never applied
as a no-op); the only transitions of the slot are Inactive → Active on an
applied `StartUpgrade` and Active → Inactive exactly when the post-loop
progress reaches `woodRequired` (raising the castle level), every other
action and phase leaving the slot unchanged. -/
theorem C5_upgrade_transitions :
    (∀ (s : GameState) (qa : QueuedAction), s.upgradeInProgress.active = true →
      qa.action = Action.startUpgrade →
        validateActionAtApplyTime s qa = .invalid "An upgrade is already in progress") ∧
    (∀ (s : GameState) (t : Int) (rest : List QueuedAction),
      s.upgradeInProgress.active = true →
        processActions s ({ action := Action.startUpgrade, queuedAtTurn := t } :: rest) =
          processActions s rest) ∧
    (∀ (s : GameState) (qa : QueuedAction), qa.action ≠ Action.startUpgrade →
      (applyAction s qa).upgradeInProgress = s.upgradeInProgress) ∧
    (∀ (s : GameState) (t : Int),
      (applyAction s { action := Action.startUpgrade, queuedAtTurn := t }).upgradeInProgress =
        { active := true, target := some (s.castleLevel + 1), progress := some 0,
          woodRequired := some (12 * (s.castleLevel + 1)) }) ∧
    (∀ s : GameState, s.upgradeInProgress.active = false → applyConstruction s = s) ∧
    (∀ (s : GameState) (p w : Int), s.upgradeInProgress.active = true →
      s.upgradeInProgress.progress = some p → s.upgradeInProgress.woodRequired = some w →
      (((applyConstruction s).upgradeInProgress.active = false) ↔
        w ≤ p + ↑(min s.jobs.builders.toNat s.wood.toNat)) ∧
      ((applyConstruction s).upgradeInProgress.active = false →
        (applyConstruction s).castleLevel = s.castleLevel + 1)) ∧
    (∀ s : GameState, (applyProduction s).upgradeInProgress = s.upgradeInProgress) ∧
    (∀ s : GameState, (applyUpkeep s).upgradeInProgress = s.upgradeInProgress) ∧
    (∀ s : GameState, (applyTaxes s).upgradeInProgress = s.upgradeInProgress) ∧
    (∀ s : GameState, (clampResources s).upgradeInProgress = s.upgradeInProgress) := by
  refine ⟨?_, ?_, ?_, ?_, ?_, ?_,
    fun s => (applyProduction_frame s).2.2,
    fun s => (applyUpkeep_frame s).2.2.2,
    fun s => (applyTaxes_frame s).2.2.2.2,
    fun s => (clampResources_frame s).2.2⟩
  · intro s qa ha he
    obtain ⟨aa, t⟩ := qa
    simp only at he
    subst he
    simp [validateActionAtApplyTime, ha]
  · intro s t rest ha
    simp [processActions, validateActionAtApplyTime, ha]
  · intro s qa hne
    obtain ⟨aa, t⟩ := qa
    cases aa <;> simp_all [applyAction]
  · intro s t
    simp [applyAction]
  · intro s h
    simp [applyConstruction, h]
  · intro s p w ha hp hw
    unfold applyConstruction
    rw [if_neg (by simp [ha])]
    dsimp only
    rw [hp, hw]
    simp only [Option.getD_some]
    rw [constructionLoop_eq]
    dsimp only
    by_cases hcond : p + ↑(min s.jobs.builders.toNat s.wood.toNat) ≥ w
    · rw [if_pos hcond]
      exact ⟨by simpa using hcond, fun _ => rfl⟩
    · rw [if_neg hcond]
      constructor
      · simp only [ha]
        constructor
        · intro hfalse
          exact absurd hfalse (by simp)
        · intro hge
          omega
      · intro hdone
        simp [ha] at hdone

/-- Witness for C5 at a concrete active upgrade: the queued `StartUpgrade`
is rejected with the fixed reason. -/
theorem C5_upgrade_transitions_witness :
    validateActionAtApplyTime
        { defaultInitialState with
            upgradeInProgress :=
              { active := true, target := some 1, progress := some 0,
                woodRequired := some 12 } }
        { action := Action.startUpgrade, queuedAtTurn := 0 } =
      .invalid "An upgrade is already in progress" :=
  C5_upgrade_transitions.1 _ _ (by decide) rfl

/-- C2: `advance()` reorders the drained queue by the fixed priority
Hire/Fire (1), AssignJobs (2), StartUpgrade (3), BuyFood (4) — the sorted
queue is a permutation of the submitted one, its priorities are
non-decreasing, and submission order is preserved within each class — and
each action is validated against and applied to the state already mutated by
the earlier actions of the tick: from any state with 4 workers and gold at
least 10, a `Hire 2` and an `AssignJobs` whose counts sum to 6, submitted in
either order, are both accepted and leave 6 workers with jobs summing to 6. -/
theorem C2_priority_reordering :
    (∀ q : List QueuedAction, List.Perm (sortActionQueue q) q) ∧
    (∀ q : List QueuedAction, (sortActionQueue q).Pairwise
        (fun a b => actionPriority a.action ≤ actionPriority b.action)) ∧
    (∀ (q : List QueuedAction) (k : Int),
        (sortActionQueue q).filter (fun qa => actionPriority qa.action = k) =
          q.filter (fun qa => actionPriority qa.action = k)) ∧
    (∀ (s : GameState) (m f lj b t₁ t₂ : Int) (q : List QueuedAction),
      s.workers = 4 → 10 ≤ s.gold → m + f + lj + b = 6 →
      (q = [{ action := Action.hire 2, queuedAtTurn := t₁ },
            { action := Action.assignJobs m f lj b, queuedAtTurn := t₂ }] ∨
       q = [{ action := Action.assignJobs m f lj b, queuedAtTurn := t₂ },
            { action := Action.hire 2, queuedAtTurn := t₁ }]) →
      (applyQueuedActions { state := s, actionQueue := q }).2 =
          [Action.hire 2, Action.assignJobs m f lj b] ∧
        (applyQueuedActions { state := s, actionQueue := q }).1.state.workers = 6 ∧
        jobsSum (applyQueuedActions { state := s, actionQueue := q }).1.state.jobs = 6) := by
  refine ⟨sortActionQueue_perm, sortActionQueue_sorted, sortActionQueue_stable, ?_⟩
  intro s m f lj b t₁ t₂ q hw hg hsum hq
  have hsort : sortActionQueue q =
      [{ action := Action.hire 2, queuedAtTurn := t₁ },
       { action := Action.assignJobs m f lj b, queuedAtTurn := t₂ }] := by
    rcases hq with rfl | rfl <;> simp [sortActionQueue, actionPriority]
  have key : (processActions s (sortActionQueue q)).2 =
      [Action.hire 2, Action.assignJobs m f lj b] ∧
      (processActions s (sortActionQueue q)).1.workers = 6 ∧
      jobsSum (processActions s (sortActionQueue q)).1.jobs = 6 := by
    rw [hsort]
    have hv1 : validateActionAtApplyTime s
        { action := Action.hire 2, queuedAtTurn := t₁ } = .valid := by
      simp only [validateActionAtApplyTime]
      rw [if_neg (by omega)]
    have hv2 : validateActionAtApplyTime
        { s with gold := s.gold - 2 * 5, workers := s.workers + 2 }
        { action := Action.assignJobs m f lj b, queuedAtTurn := t₂ } = .valid := by
      simp only [validateActionAtApplyTime]
      rw [if_neg (by omega)]
    simp only [processActions, applyAction, hv1, hv2, jobsSum]
    refine ⟨by simp, by omega, by omega⟩
  exact key

/-- Witness for C2: the fixed scenario from the default state restricted to 4
workers, with the `AssignJobs` submitted before the `Hire`: the sort applies
the hire first, both are accepted, and the workforce and job sum end at 6. -/
theorem C2_priority_reordering_witness :
    (applyQueuedActions
        { state := { defaultInitialState with workers := 4 }
          actionQueue := [{ action := Action.assignJobs 2 2 1 1, queuedAtTurn := 0 },
                          { action := Action.hire 2, queuedAtTurn := 0 }] }).2 =
        [Action.hire 2, Action.assignJobs 2 2 1 1] ∧
      (applyQueuedActions
        { state := { defaultInitialState with workers := 4 }
          actionQueue := [{ action := Action.assignJobs 2 2 1 1, queuedAtTurn := 0 },
                          { action := Action.hire 2, queuedAtTurn := 0 }] }).1.state.workers = 6 ∧
      jobsSum (applyQueuedActions
        { state := { defaultInitialState with workers := 4 }
          actionQueue := [{ action := Action.assignJobs 2 2 1 1, queuedAtTurn := 0 },
                          { action := Action.hire 2, queuedAtTurn := 0 }] }).1.state.jobs = 6 :=
  C2_priority_reordering.2.2.2 _ 2 2 1 1 0 0 _ rfl (by decide) (by decide) (Or.inr rfl)

end AICastle
